import Mathlib

/-
Verification of the Flora-Imagenes folder reconciler
(src/plantas/nombre.py) and of the image-optimization error handling
(src/scripts/optimize_images.py).

The reconciler script is embedded shallowly:
  * directory state is a list of entries (name plus contained file names);
  * the fuzzy matcher difflib.get_close_matches(word, possibilities, n=1,
    cutoff=0.6) is embedded following CPython difflib.SequenceMatcher:
    the ratio is 2*M/T where M is the total size of the matching blocks
    found by the recursive longest-matching-block decomposition, and the
    single best candidate is the max of (ratio, candidate) pairs;
  * filesystem mutations (os.rename, os.listdir, os.path.exists) become
    pure list transformations, and every console print becomes an Event.

Modelling notes on difflib fidelity:
  * autojunk only affects sequences of length >= 200; target and
    directory names here are far shorter, so the b2j table simply maps
    each character of b to its indices and the junk-extension loops of
    find_longest_match are vacuous.  The two non-junk extension loops
    are embedded as written.
  * quick_ratio and real_quick_ratio are upper bounds of ratio, so the
    cutoff filter of get_close_matches accepts a candidate exactly when
    ratio >= cutoff; the embedding checks ratio >= 0.6 directly, via
    10 * M >= 3 * (len a + len b) (both sides integral).
-/

namespace Flora

/-! ## difflib.SequenceMatcher -/

/-- One row of the find_longest_match dynamic program: the Python loop
    `for j in b2j.get(a[i], [])` restricted to `blo <= j < bhi`, carrying
    the previous row `prev` (j2len), building the new row, and updating
    the best block when a strictly longer one appears.  `a` is seq1 (the
    candidate), `b` is seq2 (the target word). -/
def dpRow (a b : List Char) (blo bhi i : Nat) (prev : Nat → Nat)
    (best : Nat × Nat × Nat) : (Nat → Nat) × (Nat × Nat × Nat) :=
  (List.range' blo (bhi - blo)).foldl
    (fun acc j =>
      if b.getD j ' ' = a.getD i ' ' then
        let k := (match j with | 0 => 0 | j' + 1 => prev j') + 1
        let row := fun x => if x = j then k else acc.1 x
        let best' := if k > acc.2.2.2 then (i + 1 - k, j + 1 - k, k) else acc.2
        (row, best')
      else acc)
    ((fun _ => 0), best)

/-- The full dynamic program of find_longest_match over
    `alo <= i < ahi`, starting from the empty j2len row and the initial
    best `(alo, blo, 0)`. -/
def dpBest (a b : List Char) (alo ahi blo bhi : Nat) : Nat × Nat × Nat :=
  ((List.range' alo (ahi - alo)).foldl
    (fun acc i => dpRow a b blo bhi i acc.1 acc.2)
    ((fun _ => 0), (alo, blo, 0))).2

/-- The first while loop of find_longest_match after the dynamic
    program: extend the best block to the left while the adjacent
    characters agree (no character is junk here, see module comment).
    The loop decrements besti by one each turn, so it is written by
    structural recursion on besti. -/
def extendLeft (a b : List Char) (alo blo : Nat) :
    Nat → Nat → Nat → Nat × Nat × Nat
  | 0, bestj, bestsize => (0, bestj, bestsize)
  | besti + 1, bestj, bestsize =>
    if alo < besti + 1 ∧ blo < bestj ∧ a.getD besti ' ' = b.getD (bestj - 1) ' ' then
      extendLeft a b alo blo besti (bestj - 1) (bestsize + 1)
    else (besti + 1, bestj, bestsize)

/-- The second while loop of find_longest_match: extend the best block
    to the right while the adjacent characters agree.  The loop runs at
    most ahi - (besti + bestsize) turns; that quantity is taken as the
    structural recursion argument (it decreases by one per turn while
    the loop condition besti + bestsize < ahi is exactly its
    positivity). -/
def extendRightAux (a b : List Char) (bhi besti bestj : Nat) :
    Nat → Nat → Nat
  | 0, bestsize => bestsize
  | d + 1, bestsize =>
    if bestj + bestsize < bhi ∧ a.getD (besti + bestsize) ' ' = b.getD (bestj + bestsize) ' ' then
      extendRightAux a b bhi besti bestj d (bestsize + 1)
    else bestsize

/-- The second while loop, at its entry point. -/
def extendRight (a b : List Char) (ahi bhi : Nat) (besti bestj bestsize : Nat) : Nat :=
  extendRightAux a b bhi besti bestj (ahi - (besti + bestsize)) bestsize

/-- SequenceMatcher.find_longest_match on the slice
    `a[alo:ahi] x b[blo:bhi]`: dynamic program, then the two non-junk
    extension loops (the junk extension loops are vacuous, as no
    character is junk for these string lengths). -/
def findLongestMatch (a b : List Char) (alo ahi blo bhi : Nat) : Nat × Nat × Nat :=
  let d := dpBest a b alo ahi blo bhi
  let e := extendLeft a b alo blo d.1 d.2.1 d.2.2
  let k := extendRight a b ahi bhi e.1 e.2.1 e.2.2
  (e.1, e.2.1, k)

/-- Total size of the matching blocks of get_matching_blocks: the
    recursive decomposition around each longest match.  The extra fuel
    argument is a bound on the recursion depth; each recursive call
    strictly shrinks the a-slice, so fuel = length of the initial
    a-slice always suffices (fuel 0 forces an empty a-slice, on which
    find_longest_match returns an empty block and the sum is 0). -/
def matchSumRange (a b : List Char) : Nat → Nat → Nat → Nat → Nat → Nat
  | 0, _, _, _, _ => 0
  | fuel + 1, alo, ahi, blo, bhi =>
    match findLongestMatch a b alo ahi blo bhi with
    | (i, j, k) =>
      if k = 0 then 0
      else
        matchSumRange a b fuel alo i blo j + k +
          matchSumRange a b fuel (i + k) ahi (j + k) bhi

/-- M = total number of matched characters between candidate `a` and
    target `b`, as summed over SequenceMatcher.get_matching_blocks. -/
def matchSum (a b : List Char) : Nat :=
  matchSumRange a b a.length 0 a.length 0 b.length

/-- ratio(a, b) >= 0.6, i.e. 2*M/(len a + len b) >= 0.6, written
    integrally (when both lengths are zero Python defines the ratio as
    1.0, and the inequality below also holds).  The first argument is
    the candidate directory name (seq1), the second the target (seq2). -/
def ratioGE06 (cand tgt : String) : Bool :=
  decide (3 * (cand.data.length + tgt.data.length) ≤ 10 * matchSum cand.data tgt.data)

/-- Exact rational ratio as a numerator/denominator pair, used for the
    ordering inside heapq.nlargest; Python defines the ratio of two
    empty sequences to be 1.0. -/
def ratioPair (cand tgt : String) : Nat × Nat :=
  let den := cand.data.length + tgt.data.length
  if den = 0 then (1, 1) else (2 * matchSum cand.data tgt.data, den)

/-- Lexicographic strict less-than on code points, matching Python
    string comparison. -/
def strLtL : List Char → List Char → Bool
  | [], [] => false
  | [], _ :: _ => true
  | _ :: _, [] => false
  | a :: as, b :: bs =>
    if a.toNat < b.toNat then true
    else if b.toNat < a.toNat then false
    else strLtL as bs

/-- Python tuple comparison (ratio, candidate) used by heapq.nlargest:
    `p` strictly beats `q` when its ratio is larger, or the ratios tie
    and its string is lexicographically larger. -/
def betterB (p q : (Nat × Nat) × String) : Bool :=
  if p.1.1 * q.1.2 > q.1.1 * p.1.2 then true
  else if p.1.1 * q.1.2 < q.1.1 * p.1.2 then false
  else strLtL q.2.data p.2.data

/-- Scan of get_close_matches(word=t, possibilities, n=1, cutoff=0.6):
    candidates failing the cutoff are dropped; among the survivors the
    maximum (ratio, candidate) pair is kept, exactly nlargest(1, ...). -/
def bestScan (t : String) : List String → Option ((Nat × Nat) × String) →
    Option ((Nat × Nat) × String)
  | [], acc => acc
  | c :: cs, acc =>
    if ratioGE06 c t then
      match acc with
      | none => bestScan t cs (some (ratioPair c t, c))
      | some b =>
        bestScan t cs
          (if betterB (ratioPair c t, c) b then some (ratioPair c t, c) else some b)
    else bestScan t cs acc

/-- difflib.get_close_matches(target, candidates, n=1, cutoff=0.6),
    returning the single best candidate when one reaches the cutoff. -/
def getCloseMatch (t : String) (cs : List String) : Option String :=
  (bestScan t cs none).map (fun b => b.2)

/-! ## Filesystem model

A plant directory is a name plus the names of the files it contains
(the script only ever renames; the model assumes plant directories hold
plain files).  The base directory is the list of plant directories; the
list order of the model stands for the enumeration order of os.listdir. -/

/-- One subdirectory of the base path. -/
structure PDir where
  name : String
  files : List String
deriving DecidableEq

/-- Console reports of the script, one constructor per print in the
    loop.  Exact message text is cosmetic; dirRename additionally
    records the position of the renamed entry so that per-directory
    invariants can be stated (os.rename acts on the unique entry
    carrying the old name). -/
inductive Event where
  | noMatch (nombre : String)
  | dirRename (idx : Nat) (old new : String)
  | fileRename (dir old new : String)
  | fileSkip (dir candidate : String)
deriving DecidableEq

/-- nombre_cientifico.replace(" ", "_"): every space becomes an
    underscore. -/
def targetOf (nombre : String) : String :=
  ⟨nombre.data.map (fun ch => if ch = ' ' then '_' else ch)⟩

/-- Python str.lower on the ASCII names handled here. -/
def lowerStr (s : String) : String := ⟨s.data.map Char.toLower⟩

/-- Index of the last dot of the name, if any. -/
def lastDotIdx (cs : List Char) : Option Nat :=
  (List.range cs.length).foldl
    (fun acc i => if cs.getD i ' ' = '.' then some i else acc) none

/-- os.path.splitext(name)[1] for a name without path separators:
    the suffix from the last dot, unless every character before that
    dot is itself a dot (leading-dot files have no extension). -/
def extOf (s : String) : String :=
  match lastDotIdx s.data with
  | none => ""
  | some d =>
    if (s.data.take d).any (fun c => c ≠ '.') then ⟨s.data.drop d⟩ else ""

/-- The literal allow-list of the script; the ".JPG" entry is dead code
    because the compared extension has already been lowercased. -/
def validExts : List String := [".jpg", ".jpeg", ".png", ".JPG"]

/-- Python f-string {contador:02d}. -/
def pad2 (n : Nat) : String := if n < 10 then "0" ++ toString n else toString n

/-- Candidate file name f"{objetivo}_{contador:02d}{ext}". -/
def candName (tgt : String) (c : Nat) (ext : String) : String :=
  tgt ++ "_" ++ pad2 c ++ ext

/-- os.rename of one file inside a directory: the entry carrying the
    old name now carries the new one. -/
def renameFile (files : List String) (old new : String) : List String :=
  files.map (fun f => if f = old then new else f)

/-- Stable insertion preserving Python sorted order (code-point
    lexicographic). -/
def insStr (x : String) : List String → List String
  | [] => [x]
  | y :: ys => if strLtL y.data x.data then y :: insStr x ys else x :: y :: ys

/-- sorted(os.listdir(...)) on the file names of a directory. -/
def sortStr : List String → List String
  | [] => []
  | x :: xs => insStr x (sortStr xs)

/-- Body of the inner loop of the script for one file of the sorted
    snapshot: if the lowercased extension is allow-listed, build the
    candidate name; an existing candidate is reported and skipped
    without touching the counter, otherwise the file is renamed and the
    counter incremented. -/
def renumStep (tgt : String) (files : List String) (c : Nat) (archivo : String) :
    List String × Nat × List Event :=
  if lowerStr (extOf archivo) ∈ validExts then
    let nuevo := candName tgt c (lowerStr (extOf archivo))
    if nuevo ∈ files then (files, c, [Event.fileSkip tgt nuevo])
    else (renameFile files archivo nuevo, c + 1, [Event.fileRename tgt archivo nuevo])
  else (files, c, [])

/-- The inner loop over the sorted snapshot; os.path.exists consults the
    live directory contents, which the loop mutates. -/
def renumLoop (tgt : String) : List String → List String → Nat →
    List String × Nat × List Event
  | [], files, c => (files, c, [])
  | archivo :: rest, files, c =>
    let s := renumStep tgt files c archivo
    let r := renumLoop tgt rest s.1 s.2.1
    (r.1, r.2.1, s.2.2 ++ r.2.2)

/-- File renumbering of one matched directory: snapshot the listing,
    sort it, and run the loop with contador = 1. -/
def renumber (tgt : String) (files : List String) : List String × Nat × List Event :=
  renumLoop tgt (sortStr files) files 1

/-- Position of the first entry carrying a given name. -/
def findIdxStr : List PDir → String → Option Nat
  | [], _ => none
  | d :: ds, nm => if d.name = nm then some 0 else (findIdxStr ds nm).map (· + 1)

/-- Rename the entry at a position, keeping its files. -/
def renameDirAt : List PDir → Nat → String → List PDir
  | [], _, _ => []
  | d :: ds, 0, t => ⟨t, d.files⟩ :: ds
  | d :: ds, p + 1, t => d :: renameDirAt ds p t

/-- Replace the files of the entry at a position. -/
def setFilesAt : List PDir → Nat → List String → List PDir
  | [], _, _ => []
  | d :: ds, 0, fs => ⟨d.name, fs⟩ :: ds
  | d :: ds, q + 1, fs => d :: setFilesAt ds q fs

/-- Files of the entry at a position (empty when out of range). -/
def getFilesAt (ds : List PDir) (q : Nat) : List String :=
  match ds.get? q with
  | some d => d.files
  | none => []

/-- Name of the entry at a position. -/
def getNameAt (ds : List PDir) (p : Nat) : Option String :=
  (ds.get? p).map PDir.name

/-- Directory-rename step of one iteration: os.rename is issued exactly
    when the joined paths differ, i.e. when the name of the matched entry
    differs from the target; no destination-existence check guards it. -/
def dirStep (ds : List PDir) (encontrada tgt : String) : List PDir × List Event :=
  if encontrada = tgt then (ds, [])
  else
    match findIdxStr ds encontrada with
    | some p => (renameDirAt ds p tgt, [Event.dirRename p encontrada tgt])
    | none => (ds, [])

/-- File-renumbering step of one iteration: list the directory now
    carrying the target name and renumber its contents.  The none case
    cannot arise after a successful match. -/
def fileStep (ds : List PDir) (tgt : String) : List PDir × List Event :=
  match findIdxStr ds tgt with
  | none => (ds, [])
  | some q =>
    let r := renumber tgt (getFilesAt ds q)
    (setFilesAt ds q r.1, r.2.2)

/-- One iteration of the outer loop for one scientific name: re-list the
    base directory, fuzzy-match the underscored target, and either
    report no match or rename the directory (when needed) and renumber
    its image files. -/
def processName (ds : List PDir) (nombre : String) : List PDir × List Event :=
  match getCloseMatch (targetOf nombre) (ds.map (fun d => d.name)) with
  | none => (ds, [Event.noMatch nombre])
  | some encontrada =>
    let s1 := dirStep ds encontrada (targetOf nombre)
    let s2 := fileStep s1.1 (targetOf nombre)
    (s2.1, s1.2 ++ s2.2)

/-- The whole reconciliation run over the ordered name sequence. -/
def processRun : List PDir → List String → List PDir × List Event
  | ds, [] => (ds, [])
  | ds, n :: rest =>
    let s := processName ds n
    let r := processRun s.1 rest
    (r.1, s.2 ++ r.2)

/-- excel_data[nombre_cientifico].dropna().tolist(): the column with
    missing cells removed; duplicates and order are preserved. -/
def nombresCientificos (col : List (Option String)) : List String :=
  col.filterMap id

/-! ## Event observations -/

/-- Recognizer for directory renames. -/
def isDirRenameEv : Event → Bool
  | Event.dirRename .. => true
  | _ => false

/-- Recognizer for file renames. -/
def isFileRenameEv : Event → Bool
  | Event.fileRename .. => true
  | _ => false

/-- A trace with no rename of either kind. -/
def noRenameEvents (evs : List Event) : Bool :=
  evs.all (fun e => !(isDirRenameEv e || isFileRenameEv e))

/-- Positions of the directory entries renamed along a trace. -/
def dirRenIdxs (evs : List Event) : List Nat :=
  evs.filterMap (fun e => match e with
    | Event.dirRename p _ _ => some p
    | _ => none)

/-- Replay a trace against directory contents, checking that the
    destination of every file rename is absent at the moment the rename
    happens (the no-overwrite guarantee). -/
def checkNoOverwrite (files : List String) : List Event → Bool
  | [] => true
  | Event.fileRename _ o n :: rest =>
    (if n ∈ files then false else true) && checkNoOverwrite (renameFile files o n) rest
  | _ :: rest => checkNoOverwrite files rest

/-- Number of file renames in a trace (the counter increments). -/
def countFileRen (evs : List Event) : Nat := evs.countP (fun e => isFileRenameEv e)

/-- Every file of the directory with an allow-listed extension already
    carries its counter-1 candidate name for its extension (then the
    whole renumbering loop takes the skip path and the counter never
    leaves 1). -/
def filesNoopCondB (tgt : String) (files : List String) : Bool :=
  files.all (fun f =>
    if lowerStr (extOf f) ∈ validExts then
      if candName tgt 1 (lowerStr (extOf f)) ∈ files then true else false
    else true)

/-- Condition on one name under which its iteration is a no-op: either
    nothing reaches the cutoff, or the selection is exactly the target
    directory and that directory satisfies the file condition. -/
def nameNoopCondB (ds : List PDir) (n : String) : Bool :=
  match getCloseMatch (targetOf n) (ds.map (fun d => d.name)) with
  | none => true
  | some e =>
    if e = targetOf n then
      match findIdxStr ds (targetOf n) with
      | some q => filesNoopCondB (targetOf n) (getFilesAt ds q)
      | none => true
    else false

/-! ## optimize_image (src/scripts/optimize_images.py)

The image codec (PIL) and the size oracle (os.path.getsize) are
collaborators; an ImgWorld records, for one input path, the outcome of
each fallible call the function body makes, in the order the body makes
them.  Python exceptions become Except.error carrying str(e); the body
is the try block, and optimize_image wraps it in the except clause.
Sizes are kept as exact rationals (the two-decimal rounding of the
report is cosmetic); the division computing the reduction raises
ZeroDivisionError exactly when the original size is zero, which the
embedding models by an explicit guard producing the Python message. -/

/-- The data of a decoded image the body inspects: mode and size. -/
structure ImageData where
  mode : String
  width : Nat
  height : Nat

/-- Outcomes of the collaborator calls made for one input path. -/
structure ImgWorld where
  openResult : Except String ImageData
  origBytes : Except String Nat
  thumbResult : ImageData → ImageData
  saveResult : ImageData → Except String Unit
  newBytes : Except String Nat

/-- Mode conversion: RGBA, LA, L and P images are pasted onto a white
    RGB canvas of the same size; anything else is kept. -/
def convertRGB (img : ImageData) : ImageData :=
  if img.mode ∈ ["RGBA", "LA", "L", "P"] then { img with mode := "RGB" } else img

/-- Resize decision: thumbnail only when a side exceeds 1920. -/
def resizeStep (w : ImgWorld) (img : ImageData) : ImageData × Bool :=
  if 1920 < img.width ∨ 1920 < img.height then (w.thumbResult img, true)
  else (img, false)

/-- The try block of optimize_image: open, measure, convert, resize,
    save, re-measure, and build the report fields; the reduction
    divides by the original size. -/
def optimizeBody (w : ImgWorld) : Except String (ℚ × ℚ × ℚ × Bool) := do
  let img ← w.openResult
  let ob ← w.origBytes
  let originalKB : ℚ := (ob : ℚ) / 1024
  let r := resizeStep w (convertRGB img)
  let _ ← w.saveResult r.1
  let nb ← w.newBytes
  let newKB : ℚ := (nb : ℚ) / 1024
  if originalKB = 0 then Except.error "float division by zero"
  else Except.ok (originalKB, newKB, (originalKB - newKB) / originalKB * 100, r.2)

/-- The returned dictionary: success with the four report fields, or
    failure with the stringified exception. -/
inductive OptResult where
  | success (originalKB newKB reduction : ℚ) (resized : Bool)
  | failure (error : String)

/-- optimize_image: the try block with every exception turned into a
    failure dictionary. -/
def optimize_image (w : ImgWorld) : OptResult :=
  match optimizeBody w with
  | Except.ok f => OptResult.success f.1 f.2.1 f.2.2.1 f.2.2.2
  | Except.error e => OptResult.failure e

/-! ## Lemmas on the fuzzy selection -/

lemma bestScan_isSome (t : String) :
    ∀ (cs : List String) (b : (Nat × Nat) × String),
      (bestScan t cs (some b)).isSome = true := by
  intro cs
  induction cs with
  | nil => intro b; rfl
  | cons c cs ih =>
    intro b
    unfold bestScan
    by_cases hc : ratioGE06 c t
    · rw [if_pos hc]
      show (bestScan t cs (if betterB (ratioPair c t, c) b then
        some (ratioPair c t, c) else some b)).isSome = true
      by_cases hb : betterB (ratioPair c t, c) b
      · rw [if_pos hb]; exact ih _
      · rw [if_neg hb]; exact ih _
    · rw [if_neg hc]
      exact ih b

lemma bestScan_some (t : String) :
    ∀ (cs : List String) (acc : Option ((Nat × Nat) × String)) (b : (Nat × Nat) × String),
      bestScan t cs acc = some b →
      (b.2 ∈ cs ∧ ratioGE06 b.2 t = true) ∨ acc = some b := by
  intro cs
  induction cs with
  | nil => intro acc b h; exact Or.inr h
  | cons c cs ih =>
    intro acc b h
    unfold bestScan at h
    by_cases hc : ratioGE06 c t
    · rw [if_pos hc] at h
      cases acc with
      | none =>
        rcases ih _ b h with h1 | h2
        · exact Or.inl ⟨List.mem_cons_of_mem _ h1.1, h1.2⟩
        · have hb : b.2 = c := by
            have := congrArg (fun o => Option.map Prod.snd o) h2
            simpa using this.symm
          exact Or.inl ⟨hb ▸ List.mem_cons_self c cs, hb ▸ hc⟩
      | some a =>
        rcases ih _ b h with h1 | h2
        · exact Or.inl ⟨List.mem_cons_of_mem _ h1.1, h1.2⟩
        · by_cases hbet : betterB (ratioPair c t, c) a
          · rw [if_pos hbet] at h2
            have hb : b.2 = c := by
              have := congrArg (fun o => Option.map Prod.snd o) h2
              simpa using this.symm
            exact Or.inl ⟨hb ▸ List.mem_cons_self c cs, hb ▸ hc⟩
          · rw [if_neg hbet] at h2
            exact Or.inr h2
    · rw [if_neg hc] at h
      rcases ih _ b h with h1 | h2
      · exact Or.inl ⟨List.mem_cons_of_mem _ h1.1, h1.2⟩
      · exact Or.inr h2

lemma bestScan_none (t : String) :
    ∀ (cs : List String) (acc : Option ((Nat × Nat) × String)),
      bestScan t cs acc = none → acc = none ∧ ∀ d ∈ cs, ratioGE06 d t = false := by
  intro cs
  induction cs with
  | nil =>
    intro acc h
    exact ⟨h, by intro d hd; cases hd⟩
  | cons c cs ih =>
    intro acc h
    unfold bestScan at h
    by_cases hc : ratioGE06 c t
    · exfalso
      rw [if_pos hc] at h
      cases acc with
      | none =>
        have h' : bestScan t cs (some (ratioPair c t, c)) = none := h
        have hs := bestScan_isSome t cs (ratioPair c t, c)
        rw [h'] at hs
        cases hs
      | some a =>
        have h' : bestScan t cs (if betterB (ratioPair c t, c) a then
            some (ratioPair c t, c) else some a) = none := h
        by_cases hb : betterB (ratioPair c t, c) a
        · rw [if_pos hb] at h'
          have hs := bestScan_isSome t cs (ratioPair c t, c)
          rw [h'] at hs
          cases hs
        · rw [if_neg hb] at h'
          have hs := bestScan_isSome t cs a
          rw [h'] at hs
          cases hs
    · rw [if_neg hc] at h
      obtain ⟨h1, h2⟩ := ih acc h
      refine ⟨h1, ?_⟩
      intro d hd
      rcases List.mem_cons.mp hd with rfl | hd
      · simpa using hc
      · exact h2 d hd

/-- A successful get_close_matches selection came from the listing and
    passed the 0.6 cutoff. -/
lemma getCloseMatch_mem {t f : String} {cs : List String}
    (h : getCloseMatch t cs = some f) : f ∈ cs ∧ ratioGE06 f t = true := by
  unfold getCloseMatch at h
  cases hb : bestScan t cs none with
  | none => rw [hb] at h; cases h
  | some b =>
    rw [hb] at h
    have hf : b.2 = f := by simpa using h
    rcases bestScan_some t cs none b hb with h1 | h2
    · exact hf ▸ h1
    · cases h2

/-- When get_close_matches returns nothing, every listing entry is below
    the cutoff. -/
lemma getCloseMatch_none {t : String} {cs : List String}
    (h : getCloseMatch t cs = none) : ∀ d ∈ cs, ratioGE06 d t = false := by
  unfold getCloseMatch at h
  cases hb : bestScan t cs none with
  | some b => rw [hb] at h; cases h
  | none => exact (bestScan_none t cs none hb).2

/-! ## Equation lemmas for the loop bodies -/

lemma renumStep_skip {tgt archivo : String} {files : List String} {c : Nat}
    (h1 : lowerStr (extOf archivo) ∈ validExts)
    (h2 : candName tgt c (lowerStr (extOf archivo)) ∈ files) :
    renumStep tgt files c archivo =
      (files, c, [Event.fileSkip tgt (candName tgt c (lowerStr (extOf archivo)))]) := by
  unfold renumStep
  rw [if_pos h1]
  exact if_pos h2

lemma renumStep_ren {tgt archivo : String} {files : List String} {c : Nat}
    (h1 : lowerStr (extOf archivo) ∈ validExts)
    (h2 : candName tgt c (lowerStr (extOf archivo)) ∉ files) :
    renumStep tgt files c archivo =
      (renameFile files archivo (candName tgt c (lowerStr (extOf archivo))), c + 1,
        [Event.fileRename tgt archivo (candName tgt c (lowerStr (extOf archivo)))]) := by
  unfold renumStep
  rw [if_pos h1]
  exact if_neg h2

lemma renumStep_inelig {tgt archivo : String} {files : List String} {c : Nat}
    (h1 : lowerStr (extOf archivo) ∉ validExts) :
    renumStep tgt files c archivo = (files, c, []) := by
  unfold renumStep
  exact if_neg h1

lemma renumLoop_cons (tgt archivo : String) (rest files : List String) (c : Nat) :
    renumLoop tgt (archivo :: rest) files c =
      ((renumLoop tgt rest (renumStep tgt files c archivo).1
          (renumStep tgt files c archivo).2.1).1,
        (renumLoop tgt rest (renumStep tgt files c archivo).1
          (renumStep tgt files c archivo).2.1).2.1,
        (renumStep tgt files c archivo).2.2 ++
          (renumLoop tgt rest (renumStep tgt files c archivo).1
            (renumStep tgt files c archivo).2.1).2.2) := rfl

lemma processName_nomatch {ds : List PDir} {n : String}
    (h : getCloseMatch (targetOf n) (ds.map (fun d => d.name)) = none) :
    processName ds n = (ds, [Event.noMatch n]) := by
  unfold processName
  rw [h]

lemma processName_match {ds : List PDir} {n encontrada : String}
    (h : getCloseMatch (targetOf n) (ds.map (fun d => d.name)) = some encontrada) :
    processName ds n =
      ((fileStep (dirStep ds encontrada (targetOf n)).1 (targetOf n)).1,
        (dirStep ds encontrada (targetOf n)).2 ++
          (fileStep (dirStep ds encontrada (targetOf n)).1 (targetOf n)).2) := by
  unfold processName
  rw [h]

lemma processRun_cons (ds : List PDir) (n : String) (rest : List String) :
    processRun ds (n :: rest) =
      ((processRun (processName ds n).1 rest).1,
        (processName ds n).2 ++ (processRun (processName ds n).1 rest).2) := rfl

/-! ## Lemmas on the directory-list primitives -/

lemma findIdxStr_name : ∀ (ds : List PDir) (nm : String) (p : Nat),
    findIdxStr ds nm = some p → getNameAt ds p = some nm := by
  intro ds
  induction ds with
  | nil => intro nm p h; cases h
  | cons d ds ih =>
    intro nm p h
    unfold findIdxStr at h
    by_cases hd : d.name = nm
    · rw [if_pos hd] at h
      have hp : p = 0 := by simpa using h.symm
      subst hp
      simp [getNameAt, hd]
    · rw [if_neg hd] at h
      cases hf : findIdxStr ds nm with
      | none => rw [hf] at h; cases h
      | some q =>
        rw [hf] at h
        have hp : p = q + 1 := by simpa using h.symm
        subst hp
        simpa [getNameAt] using ih nm q hf

lemma findIdxStr_isSome : ∀ (ds : List PDir) (nm : String),
    nm ∈ ds.map PDir.name → (findIdxStr ds nm).isSome = true := by
  intro ds
  induction ds with
  | nil => intro nm h; cases h
  | cons d ds ih =>
    intro nm h
    unfold findIdxStr
    by_cases hd : d.name = nm
    · rw [if_pos hd]; rfl
    · rw [if_neg hd]
      rcases List.mem_cons.mp h with h1 | h1
      · exact absurd h1.symm hd
      · have := ih nm h1
        cases hf : findIdxStr ds nm with
        | none => rw [hf] at this; cases this
        | some q => rfl

lemma getNameAt_lt_length {ds : List PDir} {p : Nat} {nm : String}
    (h : getNameAt ds p = some nm) : p < ds.length := by
  unfold getNameAt at h
  cases hq : ds.get? p with
  | none => rw [hq] at h; cases h
  | some d => exact (List.get?_eq_some.mp hq).1

lemma getNameAt_renameDirAt_self : ∀ (ds : List PDir) (p : Nat) (t : String),
    p < ds.length → getNameAt (renameDirAt ds p t) p = some t := by
  intro ds
  induction ds with
  | nil => intro p t h; cases h
  | cons d ds ih =>
    intro p t h
    cases p with
    | zero => rfl
    | succ p =>
      have : p < ds.length := by simpa using Nat.lt_of_succ_lt_succ h
      simpa [renameDirAt, getNameAt] using ih p t this

lemma getNameAt_renameDirAt_ne : ∀ (ds : List PDir) (p x : Nat) (t : String),
    x ≠ p → getNameAt (renameDirAt ds p t) x = getNameAt ds x := by
  intro ds
  induction ds with
  | nil => intro p x t _; cases p <;> rfl
  | cons d ds ih =>
    intro p x t h
    cases p with
    | zero =>
      cases x with
      | zero => exact absurd rfl h
      | succ x => rfl
    | succ p =>
      cases x with
      | zero => rfl
      | succ x =>
        have hx : x ≠ p := fun he => h (by rw [he])
        simpa [renameDirAt, getNameAt] using ih p x t hx

lemma getNameAt_setFilesAt : ∀ (ds : List PDir) (q : Nat) (fs : List String) (x : Nat),
    getNameAt (setFilesAt ds q fs) x = getNameAt ds x := by
  intro ds
  induction ds with
  | nil => intro q fs x; cases q <;> rfl
  | cons d ds ih =>
    intro q fs x
    cases q with
    | zero =>
      cases x with
      | zero => rfl
      | succ x => rfl
    | succ q =>
      cases x with
      | zero => rfl
      | succ x => simpa [setFilesAt, getNameAt] using ih q fs x

/-! ## The dead ".JPG" allow-list entry -/

lemma toNat_ofNat_valid (n : Nat) (h : n.isValidChar) : (Char.ofNat n).toNat = n := by
  rw [Char.ofNat, dif_pos h]
  rfl

/-- No character lowercases to an upper-case letter, in particular not
    to the J of ".JPG". -/
lemma toLower_ne_J (c : Char) : Char.toLower c ≠ 'J' := by
  intro hEq
  unfold Char.toLower at hEq
  by_cases h : c.toNat ≥ 65 ∧ c.toNat ≤ 90
  · rw [if_pos h] at hEq
    have hv : (c.toNat + 32).isValidChar := Or.inl (by omega)
    have h74 : (Char.ofNat (c.toNat + 32)).toNat = Char.toNat 'J' := congrArg Char.toNat hEq
    rw [toNat_ofNat_valid _ hv] at h74
    have : c.toNat + 32 = 74 := h74
    omega
  · rw [if_neg h] at hEq
    subst hEq
    exact h (by decide)

/-- The lowercased extension can never equal ".JPG", so that entry of
    the allow-list is unreachable. -/
lemma lowerStr_ne_JPG (s : String) : lowerStr s ≠ ".JPG" := by
  intro h
  have hd : s.data.map Char.toLower = ['.', 'J', 'P', 'G'] := congrArg String.data h
  have hmem : 'J' ∈ s.data.map Char.toLower := by
    rw [hd]
    exact List.mem_cons_of_mem _ (List.mem_cons_self _ _)
  obtain ⟨c, _, hc⟩ := List.mem_map.mp hmem
  exact toLower_ne_J c hc

lemma setFilesAt_getFilesAt : ∀ (ds : List PDir) (q : Nat),
    q < ds.length → setFilesAt ds q (getFilesAt ds q) = ds := by
  intro ds
  induction ds with
  | nil => intro q h; cases h
  | cons d ds ih =>
    intro q h
    cases q with
    | zero => rfl
    | succ q =>
      have : q < ds.length := by simpa using Nat.lt_of_succ_lt_succ h
      have hrec := ih q this
      show d :: setFilesAt ds q (getFilesAt (d :: ds) (q + 1)) = d :: ds
      have hfs : getFilesAt (d :: ds) (q + 1) = getFilesAt ds q := rfl
      rw [hfs, hrec]

/-! ## Trace and sorting lemmas -/

lemma dirRenIdxs_append (l1 l2 : List Event) :
    dirRenIdxs (l1 ++ l2) = dirRenIdxs l1 ++ dirRenIdxs l2 :=
  List.filterMap_append _ _ _

lemma noRenameEvents_append (l1 l2 : List Event) :
    noRenameEvents (l1 ++ l2) = (noRenameEvents l1 && noRenameEvents l2) :=
  List.all_append

lemma mem_insStr (x y : String) (l : List String) :
    y ∈ insStr x l ↔ y = x ∨ y ∈ l := by
  induction l with
  | nil => simp [insStr]
  | cons z zs ih =>
    unfold insStr
    by_cases h : strLtL z.data x.data
    · rw [if_pos h]
      simp only [List.mem_cons, ih]
      tauto
    · rw [if_neg h]
      simp only [List.mem_cons]

lemma mem_sortStr (y : String) (l : List String) : y ∈ sortStr l ↔ y ∈ l := by
  induction l with
  | nil => exact Iff.rfl
  | cons x xs ih =>
    show y ∈ insStr x (sortStr xs) ↔ _
    rw [mem_insStr]
    simp only [List.mem_cons, ih]

/-- The renumbering loop never reports a directory rename. -/
lemma renumLoop_no_dirRename (tgt : String) :
    ∀ (snap files : List String) (c : Nat),
      dirRenIdxs (renumLoop tgt snap files c).2.2 = [] := by
  intro snap
  induction snap with
  | nil => intro files c; rfl
  | cons archivo rest ih =>
    intro files c
    rw [renumLoop_cons]
    show dirRenIdxs ((renumStep tgt files c archivo).2.2 ++ _) = []
    rw [dirRenIdxs_append]
    have hstep : dirRenIdxs (renumStep tgt files c archivo).2.2 = [] := by
      by_cases h1 : lowerStr (extOf archivo) ∈ validExts
      · by_cases h2 : candName tgt c (lowerStr (extOf archivo)) ∈ files
        · rw [renumStep_skip h1 h2]; rfl
        · rw [renumStep_ren h1 h2]; rfl
      · rw [renumStep_inelig h1]; rfl
    rw [hstep, ih]
    rfl

/-- The file-renumbering phase preserves every directory name. -/
lemma getNameAt_fileStep (ds : List PDir) (tgt : String) (x : Nat) :
    getNameAt (fileStep ds tgt).1 x = getNameAt ds x := by
  unfold fileStep
  cases hq : findIdxStr ds tgt with
  | none => rfl
  | some q => exact getNameAt_setFilesAt ds q _ x

/-- The file-renumbering phase never reports a directory rename. -/
lemma fileStep_no_dirRename (ds : List PDir) (tgt : String) :
    dirRenIdxs (fileStep ds tgt).2 = [] := by
  unfold fileStep
  cases hq : findIdxStr ds tgt with
  | none => rfl
  | some q => exact renumLoop_no_dirRename tgt _ _ _

/-! ## No-overwrite invariant of the renumbering loop -/

/-- Every file rename issued by the renumbering loop has a destination
    absent from the live directory contents at the moment it happens:
    the replay check succeeds on every trace the loop produces. -/
lemma checkNoOverwrite_renumLoop (tgt : String) :
    ∀ (snap files : List String) (c : Nat),
      checkNoOverwrite files (renumLoop tgt snap files c).2.2 = true := by
  intro snap
  induction snap with
  | nil => intro files c; rfl
  | cons archivo rest ih =>
    intro files c
    rw [renumLoop_cons]
    by_cases h1 : lowerStr (extOf archivo) ∈ validExts
    · by_cases h2 : candName tgt c (lowerStr (extOf archivo)) ∈ files
      · rw [renumStep_skip h1 h2]
        exact ih files c
      · rw [renumStep_ren h1 h2]
        show ((if candName tgt c (lowerStr (extOf archivo)) ∈ files then false else true) &&
          checkNoOverwrite
            (renameFile files archivo (candName tgt c (lowerStr (extOf archivo))))
            (renumLoop tgt rest
              (renameFile files archivo (candName tgt c (lowerStr (extOf archivo))))
              (c + 1)).2.2) = true
        rw [if_neg h2]
        rw [ih (renameFile files archivo (candName tgt c (lowerStr (extOf archivo)))) (c + 1)]
        rfl
    · rw [renumStep_inelig h1]
      exact ih files c

/-! ## No-op conditions for a rename-free run -/

/-- Under the file condition the renumbering loop leaves the directory
    untouched, keeps the counter at 1 and only reports skips. -/
lemma renumLoop_noop (tgt : String) (files : List String)
    (h : filesNoopCondB tgt files = true) :
    ∀ snap, (∀ x ∈ snap, x ∈ files) →
      (renumLoop tgt snap files 1).1 = files ∧
      (renumLoop tgt snap files 1).2.1 = 1 ∧
      noRenameEvents (renumLoop tgt snap files 1).2.2 = true := by
  intro snap
  induction snap with
  | nil => intro _; exact ⟨rfl, rfl, rfl⟩
  | cons archivo rest ih =>
    intro hmem
    have hx : archivo ∈ files := hmem archivo (List.mem_cons_self _ _)
    have hrest : ∀ x ∈ rest, x ∈ files :=
      fun x hxx => hmem x (List.mem_cons_of_mem _ hxx)
    rw [renumLoop_cons]
    by_cases h1 : lowerStr (extOf archivo) ∈ validExts
    · have hcand : candName tgt 1 (lowerStr (extOf archivo)) ∈ files := by
        have hall := List.all_eq_true.mp h archivo hx
        rw [if_pos h1] at hall
        by_cases h2 : candName tgt 1 (lowerStr (extOf archivo)) ∈ files
        · exact h2
        · rw [if_neg h2] at hall; cases hall
      rw [renumStep_skip h1 hcand]
      obtain ⟨ha, hb, hc⟩ := ih hrest
      refine ⟨ha, hb, ?_⟩
      show noRenameEvents
        (Event.fileSkip tgt (candName tgt 1 (lowerStr (extOf archivo))) ::
          (renumLoop tgt rest files 1).2.2) = true
      unfold noRenameEvents at hc ⊢
      rw [List.all_cons, hc]
      rfl
    · rw [renumStep_inelig h1]
      exact ih hrest

/-- Under the per-directory file condition the file phase of one
    iteration is a no-op. -/
lemma fileStep_noop (ds : List PDir) (tgt : String)
    (hfile : ∀ q, findIdxStr ds tgt = some q →
      filesNoopCondB tgt (getFilesAt ds q) = true) :
    (fileStep ds tgt).1 = ds ∧ noRenameEvents (fileStep ds tgt).2 = true := by
  unfold fileStep
  cases hq : findIdxStr ds tgt with
  | none => exact ⟨rfl, rfl⟩
  | some q =>
    have hcond := hfile q hq
    have hmem : ∀ x ∈ sortStr (getFilesAt ds q), x ∈ getFilesAt ds q :=
      fun x hxx => (mem_sortStr x _).mp hxx
    obtain ⟨ha, _, hc⟩ := renumLoop_noop tgt (getFilesAt ds q) hcond
      (sortStr (getFilesAt ds q)) hmem
    constructor
    · show setFilesAt ds q (renumber tgt (getFilesAt ds q)).1 = ds
      have hlt : q < ds.length := getNameAt_lt_length (findIdxStr_name ds tgt q hq)
      rw [show (renumber tgt (getFilesAt ds q)).1 = getFilesAt ds q from ha]
      exact setFilesAt_getFilesAt ds q hlt
    · exact hc

/-- Under the name condition one whole iteration is a no-op: same
    state, no rename of either kind. -/
lemma processName_noop (ds : List PDir) (n : String)
    (h : nameNoopCondB ds n = true) :
    (processName ds n).1 = ds ∧ noRenameEvents (processName ds n).2 = true := by
  unfold nameNoopCondB at h
  cases hm : getCloseMatch (targetOf n) (ds.map (fun d => d.name)) with
  | none =>
    rw [processName_nomatch hm]
    exact ⟨rfl, rfl⟩
  | some e =>
    rw [hm] at h
    have h' : (if e = targetOf n then
        (match findIdxStr ds (targetOf n) with
          | some q => filesNoopCondB (targetOf n) (getFilesAt ds q)
          | none => true)
      else false) = true := h
    by_cases he : e = targetOf n
    · rw [if_pos he] at h'
      subst he
      rw [processName_match hm]
      have hdir : dirStep ds (targetOf n) (targetOf n) = (ds, []) := by
        unfold dirStep
        rw [if_pos rfl]
      rw [hdir]
      have hfile : ∀ q, findIdxStr ds (targetOf n) = some q →
          filesNoopCondB (targetOf n) (getFilesAt ds q) = true := by
        intro q hq
        rw [hq] at h'
        exact h'
      obtain ⟨ha, hb⟩ := fileStep_noop ds (targetOf n) hfile
      refine ⟨ha, ?_⟩
      show noRenameEvents ([] ++ (fileStep ds (targetOf n)).2) = true
      rw [List.nil_append]
      exact hb
    · rw [if_neg he] at h'
      cases h'

/-! ## At-most-one directory rename per entry -/

/-- One iteration either issues no directory rename and preserves every
    entry name, or renames exactly one entry p, whose old name reached
    the cutoff against the target; p then carries the target name and
    all other entries are untouched. -/
lemma processName_dirRename_cases (ds : List PDir) (n : String) :
    (dirRenIdxs (processName ds n).2 = [] ∧
      ∀ x, getNameAt (processName ds n).1 x = getNameAt ds x) ∨
    (∃ p f, dirRenIdxs (processName ds n).2 = [p] ∧
      ratioGE06 f (targetOf n) = true ∧
      getNameAt ds p = some f ∧
      getNameAt (processName ds n).1 p = some (targetOf n) ∧
      ∀ x, x ≠ p → getNameAt (processName ds n).1 x = getNameAt ds x) := by
  cases hm : getCloseMatch (targetOf n) (ds.map (fun d => d.name)) with
  | none =>
    rw [processName_nomatch hm]
    exact Or.inl ⟨rfl, fun _ => rfl⟩
  | some e =>
    rw [processName_match hm]
    by_cases he : e = targetOf n
    · have hdir : dirStep ds e (targetOf n) = (ds, []) := by
        unfold dirStep
        rw [if_pos he]
      rw [hdir]
      refine Or.inl ⟨?_, fun x => getNameAt_fileStep ds (targetOf n) x⟩
      show dirRenIdxs ([] ++ (fileStep ds (targetOf n)).2) = []
      rw [List.nil_append]
      exact fileStep_no_dirRename ds (targetOf n)
    · cases hp : findIdxStr ds e with
      | none =>
        have hdir : dirStep ds e (targetOf n) = (ds, []) := by
          unfold dirStep
          rw [if_neg he, hp]
        rw [hdir]
        refine Or.inl ⟨?_, fun x => getNameAt_fileStep ds (targetOf n) x⟩
        show dirRenIdxs ([] ++ (fileStep ds (targetOf n)).2) = []
        rw [List.nil_append]
        exact fileStep_no_dirRename ds (targetOf n)
      | some p =>
        have hdir : dirStep ds e (targetOf n) =
            (renameDirAt ds p (targetOf n), [Event.dirRename p e (targetOf n)]) := by
          unfold dirStep
          rw [if_neg he, hp]
        rw [hdir]
        have hold : getNameAt ds p = some e := findIdxStr_name ds e p hp
        have hlt : p < ds.length := getNameAt_lt_length hold
        refine Or.inr ⟨p, e, ?_, (getCloseMatch_mem hm).2, hold, ?_, ?_⟩
        · show dirRenIdxs
            ([Event.dirRename p e (targetOf n)] ++
              (fileStep (renameDirAt ds p (targetOf n)) (targetOf n)).2) = [p]
          rw [dirRenIdxs_append, fileStep_no_dirRename]
          rfl
        · rw [getNameAt_fileStep]
          rw [getNameAt_renameDirAt_self ds p (targetOf n) hlt]
        · intro x hx
          rw [getNameAt_fileStep]
          exact getNameAt_renameDirAt_ne ds p x (targetOf n) hx

/-- Invariant of the run: with pairwise-dissimilar targets, the
    directory renames of a run touch pairwise distinct entries, and a
    protected entry whose current name is below the cutoff against all
    remaining targets is never renamed. -/
lemma processRun_rename_inv :
    ∀ (nombres : List String) (ds : List PDir) (prot : List Nat),
      (∀ p ∈ prot, ∃ nm, getNameAt ds p = some nm ∧
        ∀ r ∈ nombres, ratioGE06 nm (targetOf r) = false) →
      nombres.Pairwise (fun a b => ratioGE06 (targetOf a) (targetOf b) = false) →
      (dirRenIdxs (processRun ds nombres).2).Nodup ∧
      (∀ p ∈ prot, p ∉ dirRenIdxs (processRun ds nombres).2) := by
  intro nombres
  induction nombres with
  | nil =>
    intro ds prot _ _
    exact ⟨List.nodup_nil, fun p _ h => by cases h⟩
  | cons n rest ih =>
    intro ds prot hprot hpair
    obtain ⟨hpairn, hpairrest⟩ := List.pairwise_cons.mp hpair
    rw [processRun_cons]
    rcases processName_dirRename_cases ds n with ⟨hemp, hnames⟩ |
      ⟨p, f, hidx, hratioF, hold, hnew, hothers⟩
    · have hprot' : ∀ x ∈ prot, ∃ nm, getNameAt (processName ds n).1 x = some nm ∧
          ∀ r ∈ rest, ratioGE06 nm (targetOf r) = false := by
        intro x hx
        obtain ⟨nm, h1, h2⟩ := hprot x hx
        exact ⟨nm, by rw [hnames x]; exact h1,
          fun r hr => h2 r (List.mem_cons_of_mem _ hr)⟩
      obtain ⟨ih1, ih2⟩ := ih (processName ds n).1 prot hprot' hpairrest
      constructor
      · show (dirRenIdxs ((processName ds n).2 ++
          (processRun (processName ds n).1 rest).2)).Nodup
        rw [dirRenIdxs_append, hemp, List.nil_append]
        exact ih1
      · intro x hx
        show x ∉ dirRenIdxs ((processName ds n).2 ++
          (processRun (processName ds n).1 rest).2)
        rw [dirRenIdxs_append, hemp, List.nil_append]
        exact ih2 x hx
    · have hpnot : ∀ p' ∈ prot, p' ≠ p := by
        intro p' hp' he
        subst he
        obtain ⟨nm, h1, h2⟩ := hprot p' hp'
        have hnm : nm = f := by
          rw [hold] at h1
          exact (Option.some.injEq _ _ ▸ h1).symm
        have := h2 n (List.mem_cons_self _ _)
        rw [hnm] at this
        rw [this] at hratioF
        cases hratioF
      have hprot' : ∀ x ∈ (p :: prot), ∃ nm,
          getNameAt (processName ds n).1 x = some nm ∧
          ∀ r ∈ rest, ratioGE06 nm (targetOf r) = false := by
        intro x hx
        rcases List.mem_cons.mp hx with rfl | hx
        · exact ⟨targetOf n, hnew, fun r hr => hpairn r hr⟩
        · obtain ⟨nm, h1, h2⟩ := hprot x hx
          exact ⟨nm, by rw [hothers x (hpnot x hx)]; exact h1,
            fun r hr => h2 r (List.mem_cons_of_mem _ hr)⟩
      obtain ⟨ih1, ih2⟩ := ih (processName ds n).1 (p :: prot) hprot' hpairrest
      have hpno : p ∉ dirRenIdxs (processRun (processName ds n).1 rest).2 :=
        ih2 p (List.mem_cons_self _ _)
      constructor
      · show (dirRenIdxs ((processName ds n).2 ++
          (processRun (processName ds n).1 rest).2)).Nodup
        rw [dirRenIdxs_append, hidx]
        exact List.nodup_cons.mpr ⟨hpno, ih1⟩
      · intro x hx
        show x ∉ dirRenIdxs ((processName ds n).2 ++
          (processRun (processName ds n).1 rest).2)
        rw [dirRenIdxs_append, hidx]
        intro hmem
        rcases List.mem_cons.mp hmem with rfl | hmem
        · exact hpnot x hx rfl
        · exact ih2 x (List.mem_cons_of_mem _ hx) hmem

/-! ## Claims -/

/-- C1 (counterexample): running the Reconciler a second time on the
    filesystem state produced by a first run is not rename-free.  File
    side: directory T with files A.png and T_01.jpg is turned by the
    first run into T_01.png, T_02.jpg, and the second run renames
    T_02.jpg (a file rename occurs).  Directory side: with names
    Ficus a, Ficus b and single directory Ficus_x, the first run leaves
    the directory named Ficus_b, and the second run renames it again
    (directory renames occur). -/
theorem c1_counter_second_run_renames :
    (processRun (processRun [⟨"T", ["A.png", "T_01.jpg"]⟩] ["T"]).1 ["T"]).2.any
        isFileRenameEv = true ∧
    (processRun (processRun [⟨"Ficus_x", []⟩] ["Ficus a", "Ficus b"]).1
        ["Ficus a", "Ficus b"]).2.any isDirRenameEv = true := by decide

/-- C1 (amended): a run performs zero directory renames and zero file
    renames — leaving the state unchanged — exactly under the no-op
    conditions: each name either matches nothing, or its selection is
    the target directory itself and every allow-listed file there
    already bears the counter-1 candidate name for its extension.  The
    state left by a first run need not satisfy these conditions (see the
    counterexample), so unconditional second-run idempotence fails. -/
theorem c1_amended_noop_run (ds : List PDir) (nombres : List String)
    (h : ∀ n ∈ nombres, nameNoopCondB ds n = true) :
    (processRun ds nombres).1 = ds ∧
    noRenameEvents (processRun ds nombres).2 = true := by
  induction nombres with
  | nil => exact ⟨rfl, rfl⟩
  | cons n rest ih =>
    obtain ⟨h1, h2⟩ := processName_noop ds n (h n (List.mem_cons_self _ _))
    rw [processRun_cons, h1]
    obtain ⟨h3, h4⟩ := ih (fun m hm => h m (List.mem_cons_of_mem _ hm))
    refine ⟨h3, ?_⟩
    show noRenameEvents ((processName ds n).2 ++ (processRun ds rest).2) = true
    rw [noRenameEvents_append, h2, h4]
    rfl

/-- C1 (witness): a directory already named Ficus_benjamina whose only
    file is Ficus_benjamina_01.jpg satisfies the no-op condition, and
    the run leaves it untouched with no renames. -/
theorem c1_amended_noop_run_witness :
    (processRun [⟨"Ficus_benjamina", ["Ficus_benjamina_01.jpg"]⟩]
      ["Ficus benjamina"]).1 = [⟨"Ficus_benjamina", ["Ficus_benjamina_01.jpg"]⟩] ∧
    noRenameEvents (processRun [⟨"Ficus_benjamina", ["Ficus_benjamina_01.jpg"]⟩]
      ["Ficus benjamina"]).2 = true :=
  c1_amended_noop_run [⟨"Ficus_benjamina", ["Ficus_benjamina_01.jpg"]⟩]
    ["Ficus benjamina"] (by decide)

/-- C2 (counterexample): the same directory entry (position 0) is
    selected and renamed by two successive CanonicalNames in one run:
    Ficus a renames Ficus_x to Ficus_a, then Ficus b fuzzy-matches the
    freshly renamed Ficus_a and renames it to Ficus_b. -/
theorem c2_counter_dir_renamed_twice :
    dirRenIdxs (processRun [⟨"Ficus_x", []⟩] ["Ficus a", "Ficus b"]).2 = [0, 0] := by
  decide

/-- C2 (amended): when the targets of the processed names are pairwise
    below the 0.6 cutoff against each other (in processing order), no
    two iterations rename the same directory entry: the positions of
    the renamed entries are pairwise distinct. -/
theorem c2_amended_pairwise_dissimilar (ds : List PDir) (nombres : List String)
    (hpair : nombres.Pairwise
      (fun a b => ratioGE06 (targetOf a) (targetOf b) = false)) :
    (dirRenIdxs (processRun ds nombres).2).Nodup :=
  (processRun_rename_inv nombres ds [] (fun p hp => absurd hp (List.not_mem_nil p))
    hpair).1

/-- C2 (witness): two dissimilar names over two directories rename
    distinct entries. -/
theorem c2_amended_pairwise_dissimilar_witness :
    (dirRenIdxs (processRun [⟨"Ficus_benjamin", []⟩, ⟨"Rosa_china", []⟩]
      ["Ficus benjamina", "Zzz qqq"]).2).Nodup :=
  c2_amended_pairwise_dissimilar [⟨"Ficus_benjamin", []⟩, ⟨"Rosa_china", []⟩]
    ["Ficus benjamina", "Zzz qqq"] (by decide)

/-- C3 (counterexample): the name sequence is the dropna of the column
    and keeps duplicates: a scientific name appearing twice yields a
    sequence that is not duplicate-free, and its per-name procedure runs
    once per occurrence (here: two no-match reports in one run). -/
theorem c3_counter_duplicates_kept :
    nombresCientificos [some "Ficus lyrata", none, some "Ficus lyrata"] =
      ["Ficus lyrata", "Ficus lyrata"] ∧
    ¬ (["Ficus lyrata", "Ficus lyrata"] : List String).Nodup ∧
    (processRun []
        (nombresCientificos [some "Ficus lyrata", none, some "Ficus lyrata"])).2 =
      [Event.noMatch "Ficus lyrata", Event.noMatch "Ficus lyrata"] := by decide

/-- C3 (amended): the processed sequence is the source column with the
    missing entries dropped, duplicates retained: every name occurs in
    the sequence exactly as often as it occurs (non-missing) in the
    column, so a duplicated name is processed once per occurrence
    rather than once per run. -/
theorem c3_amended_multiplicity (col : List (Option String)) (s : String) :
    (nombresCientificos col).count s = col.count (some s) := by
  induction col with
  | nil => rfl
  | cons o rest ih =>
    cases o with
    | none =>
      show (nombresCientificos rest).count s =
        ((none : Option String) :: rest).count (some s)
      rw [List.count_cons, ih]
      simp
    | some v =>
      show (v :: nombresCientificos rest).count s =
        ((some v : Option String) :: rest).count (some s)
      rw [List.count_cons, List.count_cons, ih]
      simp

/-- C4 (counterexample): the renumbering loop can assign a counter value
    that is already present as the two-digit suffix of another file in
    the same directory.  In directory T with files T_01.png and a.jpg,
    the suffix 01 is present (on T_01.png), yet a.jpg is renamed to
    T_01.jpg with counter value 1: the claim "never assigns a counter
    value already present as a two-digit suffix of a file" fails; only the
    full-filename collision is guarded. -/
theorem c4_counter_suffix_reuse :
    Event.fileRename "T" "a.jpg" "T_01.jpg" ∈ (renumber "T" ["T_01.png", "a.jpg"]).2.2 ∧
    "T_01.png" = "T" ++ "_" ++ pad2 1 ++ ".png" ∧
    "T_01.png" ∈ ["T_01.png", "a.jpg"] := by decide

/-- C4 (amended): file renumbering never overwrites an existing file:
    replaying the produced trace against the initial directory contents
    confirms that the destination of each file rename is absent at the
    moment of that rename.  (Counter values may still recur as suffixes
    of files with a different extension.) -/
theorem c4_no_overwrite (tgt : String) (files : List String) :
    checkNoOverwrite files (renumber tgt files).2.2 = true :=
  checkNoOverwrite_renumLoop tgt (sortStr files) files 1

/-- C5: when the candidate name {target}_{counter:02d}{ext} already
    exists in the directory, the file is reported as skipped, nothing is
    renamed and the counter is unchanged; moreover, for every input the
    counter after one step is the counter before plus the number of file
    renames the step issued — it advances only on a successful rename. -/
theorem c5_collision_skip (tgt archivo : String) (files : List String) (c : Nat)
    (helig : lowerStr (extOf archivo) ∈ validExts)
    (hex : candName tgt c (lowerStr (extOf archivo)) ∈ files) :
    renumStep tgt files c archivo =
      (files, c, [Event.fileSkip tgt (candName tgt c (lowerStr (extOf archivo)))]) ∧
    ∀ (files₀ : List String) (c₀ : Nat) (a₀ : String),
      (renumStep tgt files₀ c₀ a₀).2.1 = c₀ + countFileRen (renumStep tgt files₀ c₀ a₀).2.2 := by
  constructor
  · exact renumStep_skip helig hex
  · intro files₀ c₀ a₀
    by_cases h1 : lowerStr (extOf a₀) ∈ validExts
    · by_cases h2 : candName tgt c₀ (lowerStr (extOf a₀)) ∈ files₀
      · rw [renumStep_skip h1 h2]; rfl
      · rw [renumStep_ren h1 h2]; rfl
    · rw [renumStep_inelig h1]; rfl

/-- C5 (witness): with pre-existing Ficus_benjamina_01.jpg in the
    directory, the next eligible image img.jpg is skipped and the
    counter stays at 1. -/
theorem c5_collision_skip_witness :
    renumStep "Ficus_benjamina" ["Ficus_benjamina_01.jpg", "img.jpg"] 1 "img.jpg" =
      (["Ficus_benjamina_01.jpg", "img.jpg"], 1,
        [Event.fileSkip "Ficus_benjamina" "Ficus_benjamina_01.jpg"]) :=
  (c5_collision_skip "Ficus_benjamina" "img.jpg" ["Ficus_benjamina_01.jpg", "img.jpg"] 1
    (by decide) (by decide)).1

/-- C6: the fuzzy match selects at most one entry (it returns an
    optional single candidate); a selected entry comes from the listing
    and its similarity to the target is at least 0.6, and when no entry
    reaches 0.6 the result is no match, with every listing entry below
    the cutoff. -/
theorem c6_fuzzy_match_threshold (t : String) (cs : List String) :
    (∀ f, getCloseMatch t cs = some f → f ∈ cs ∧ ratioGE06 f t = true) ∧
    (getCloseMatch t cs = none → ∀ d ∈ cs, ratioGE06 d t = false) :=
  ⟨fun _ h => getCloseMatch_mem h, fun h => getCloseMatch_none h⟩

/-- C6 (witness): Ficus_benjamin is selected for target Ficus_benjamina
    and indeed sits at or above the 0.6 cutoff. -/
theorem c6_fuzzy_match_threshold_witness :
    "Ficus_benjamin" ∈ ["Ficus_benjamin", "Rosa"] ∧
    ratioGE06 "Ficus_benjamin" "Ficus_benjamina" = true :=
  (c6_fuzzy_match_threshold "Ficus_benjamina" ["Ficus_benjamin", "Rosa"]).1
    "Ficus_benjamin" (by decide)

/-- C7: a file enters the renumbering exactly when its lowercased
    extension is .jpg, .jpeg or .png (the ".JPG" allow-list entry is
    unreachable after lowercasing); a file with any other extension is
    left untouched by the loop step; and the directory Mimosa_pudica
    with img1.jpg, img2.png, foo.txt ends as Mimosa_pudica_01.jpg,
    Mimosa_pudica_02.png with foo.txt unchanged, the files renumbered in
    ascending name order with the counter starting at 1. -/
theorem c7_extension_filter :
    (∀ s : String, lowerStr (extOf s) ∈ validExts ↔
      lowerStr (extOf s) ∈ [".jpg", ".jpeg", ".png"]) ∧
    (∀ (tgt : String) (files : List String) (c : Nat) (archivo : String),
      lowerStr (extOf archivo) ∉ [".jpg", ".jpeg", ".png"] →
      renumStep tgt files c archivo = (files, c, [])) ∧
    processName [⟨"Mimosa_pudica", ["img1.jpg", "img2.png", "foo.txt"]⟩] "Mimosa pudica" =
      ([⟨"Mimosa_pudica", ["Mimosa_pudica_01.jpg", "Mimosa_pudica_02.png", "foo.txt"]⟩],
        [Event.fileRename "Mimosa_pudica" "img1.jpg" "Mimosa_pudica_01.jpg",
         Event.fileRename "Mimosa_pudica" "img2.png" "Mimosa_pudica_02.png"]) := by
  have hiff : ∀ s : String, lowerStr (extOf s) ∈ validExts ↔
      lowerStr (extOf s) ∈ [".jpg", ".jpeg", ".png"] := by
    intro s
    simp only [validExts, List.mem_cons, List.not_mem_nil, or_false]
    constructor
    · rintro (h | h | h | h)
      · exact Or.inl h
      · exact Or.inr (Or.inl h)
      · exact Or.inr (Or.inr h)
      · exact absurd h (lowerStr_ne_JPG (extOf s))
    · rintro (h | h | h)
      · exact Or.inl h
      · exact Or.inr (Or.inl h)
      · exact Or.inr (Or.inr (Or.inl h))
  refine ⟨hiff, ?_, by decide⟩
  intro tgt files c archivo h
  have hnv : lowerStr (extOf archivo) ∉ validExts := fun hv => h ((hiff archivo).mp hv)
  exact renumStep_inelig hnv

/-- C7 (witness): a .txt file is untouched by a loop step. -/
theorem c7_extension_filter_witness :
    renumStep "Mimosa_pudica" ["foo.txt"] 1 "foo.txt" = (["foo.txt"], 1, []) :=
  c7_extension_filter.2.1 "Mimosa_pudica" ["foo.txt"] 1 "foo.txt" (by decide)

/-- C8: a name with no listing entry at or above the cutoff causes no
    rename at all: the iteration returns the state unchanged with a
    single no-match report, and the run continues with the remaining
    names from the same state. -/
theorem c8_no_match_continues (ds : List PDir) (n : String) (rest : List String)
    (h : getCloseMatch (targetOf n) (ds.map (fun d => d.name)) = none) :
    processName ds n = (ds, [Event.noMatch n]) ∧
    processRun ds (n :: rest) =
      ((processRun ds rest).1, Event.noMatch n :: (processRun ds rest).2) := by
  have h1 : processName ds n = (ds, [Event.noMatch n]) := processName_nomatch h
  refine ⟨h1, ?_⟩
  rw [processRun_cons, h1]
  rfl

/-- C8 (witness): Zzz unmatched plant does not reach the cutoff against
    a listing holding Rosa; the run records the no-match and ends. -/
theorem c8_no_match_continues_witness :
    processName [⟨"Rosa", []⟩] "Zzz unmatched plant" =
      ([⟨"Rosa", []⟩], [Event.noMatch "Zzz unmatched plant"]) ∧
    processRun [⟨"Rosa", []⟩] ["Zzz unmatched plant"] =
      ((processRun [⟨"Rosa", []⟩] []).1,
        Event.noMatch "Zzz unmatched plant" :: (processRun [⟨"Rosa", []⟩] []).2) :=
  c8_no_match_continues [⟨"Rosa", []⟩] "Zzz unmatched plant" [] (by decide)

/-- C9: the directory rename is unguarded: whenever the selected entry
    differs from the target name, a directory rename is issued — the
    hypotheses place no condition on whether a directory named the
    target already exists, unlike the file renames, whose destination
    existence is checked (renumStep).  -/
theorem c9_dir_rename_unguarded (ds : List PDir) (n f : String)
    (hsel : getCloseMatch (targetOf n) (ds.map (fun d => d.name)) = some f)
    (hne : f ≠ targetOf n) :
    ∃ p, findIdxStr ds f = some p ∧
      Event.dirRename p f (targetOf n) ∈ (processName ds n).2 := by
  have hmem := (getCloseMatch_mem hsel).1
  have hsome := findIdxStr_isSome ds f hmem
  cases hp : findIdxStr ds f with
  | none => rw [hp] at hsome; cases hsome
  | some p =>
    refine ⟨p, rfl, ?_⟩
    have hd : dirStep ds f (targetOf n) =
        (renameDirAt ds p (targetOf n), [Event.dirRename p f (targetOf n)]) := by
      unfold dirStep
      rw [if_neg hne, hp]
    rw [processName_match hsel, hd]
    exact List.mem_append_left _ (List.mem_cons_self _ _)

/-- C9 (witness): Ficus_benjamin is matched for target Ficus_benjamina
    and a directory rename is issued for it. -/
theorem c9_dir_rename_unguarded_witness :
    ∃ p, findIdxStr [⟨"Ficus_benjamin", []⟩] "Ficus_benjamin" = some p ∧
      Event.dirRename p "Ficus_benjamin" (targetOf "Ficus benjamina") ∈
        (processName [⟨"Ficus_benjamin", []⟩] "Ficus benjamina").2 :=
  c9_dir_rename_unguarded [⟨"Ficus_benjamin", []⟩] "Ficus benjamina" "Ficus_benjamin"
    (by decide) (by decide)

/-- C10: optimize_image never propagates an exception: for every
    behaviour of the collaborators it returns either a failure carrying
    the error string or a success carrying the four report fields; an
    error anywhere in the body becomes a failure result, a completed
    body becomes a success result, and in particular a zero-byte input
    file, with everything else succeeding, yields the caught
    ZeroDivisionError as a failure rather than an exception. -/
theorem c10_optimize_total (w : ImgWorld) :
    ((∃ e, optimize_image w = OptResult.failure e) ∨
      ∃ o n r z, optimize_image w = OptResult.success o n r z) ∧
    (∀ e, optimizeBody w = Except.error e →
      optimize_image w = OptResult.failure e) ∧
    (∀ f, optimizeBody w = Except.ok f →
      optimize_image w = OptResult.success f.1 f.2.1 f.2.2.1 f.2.2.2) ∧
    (∀ img, w.openResult = Except.ok img → w.origBytes = Except.ok 0 →
      w.saveResult (resizeStep w (convertRGB img)).1 = Except.ok () →
      (∃ nb, w.newBytes = Except.ok nb) →
      optimize_image w = OptResult.failure "float division by zero") := by
  refine ⟨?_, ?_, ?_, ?_⟩
  · cases hb : optimizeBody w with
    | error e =>
      exact Or.inl ⟨e, by unfold optimize_image; rw [hb]⟩
    | ok f =>
      exact Or.inr ⟨f.1, f.2.1, f.2.2.1, f.2.2.2, by unfold optimize_image; rw [hb]⟩
  · intro e he
    unfold optimize_image
    rw [he]
  · intro f hf
    unfold optimize_image
    rw [hf]
  · rintro img hopen horig hsave ⟨nb, hnb⟩
    have hb : optimizeBody w = Except.error "float division by zero" := by
      unfold optimizeBody
      rw [hopen, horig, hnb]
      simp only [bind, Except.bind]
      rw [hsave]
      simp only [bind, Except.bind]
      simp
    unfold optimize_image
    rw [hb]

/-- C10 (witness): a world with a zero-byte original and otherwise
    successful collaborator calls produces the caught division error. -/
theorem c10_optimize_total_witness :
    optimize_image ⟨Except.ok ⟨"RGB", 100, 100⟩, Except.ok 0, id,
        fun _ => Except.ok (), Except.ok 1024⟩ =
      OptResult.failure "float division by zero" :=
  (c10_optimize_total ⟨Except.ok ⟨"RGB", 100, 100⟩, Except.ok 0, id,
      fun _ => Except.ok (), Except.ok 1024⟩).2.2.2
    ⟨"RGB", 100, 100⟩ rfl rfl rfl ⟨1024, rfl⟩

end Flora
